import Mathlib

/-!
A shallow embedding of the NYCSubwayTour program (files `gtfs.py` and
`tour.py`): the consolidated transit graph, the all-pairs shortest-path
computation, the leaf-branch heuristic and the A*-style covering search,
together with the stop-times loading pipeline (midnight rollover, edge
averaging, reference checking).  Machine floats are modelled as `ℚ`,
`float('inf')` as `none` in `Option ℚ`, Python exceptions as `Option` /
`Except`, and Python dicts as association lists or functions.
-/

namespace NYC

attribute [local semireducible] Rat.add Rat.mul Rat.inv Rat.sub

set_option maxRecDepth 10000

/-- Travel times: rationals extended with infinity (`float` incl. `inf`,
`none` playing the role of `float('inf')`). -/
abbrev W : Type := Option ℚ

/-- Addition of extended travel times (`inf + x = inf`). -/
def wadd : W → W → W
  | some a, some b => some (a + b)
  | _, _ => none

/-- `min` of extended travel times. -/
def wmin : W → W → W
  | none, b => b
  | some a, none => some a
  | some a, some b => some (if a ≤ b then a else b)

/-- `max` of extended travel times (`max(x, inf) = inf`). -/
def wmax : W → W → W
  | none, _ => none
  | some _, none => none
  | some a, some b => some (if a ≤ b then b else a)

/-- The `≤` order on extended travel times (`x ≤ inf` always). -/
def wle : W → W → Prop
  | _, none => True
  | none, some _ => False
  | some a, some b => a ≤ b

/-- The strict `<` order on extended travel times. -/
def wlt : W → W → Prop
  | none, _ => False
  | some _, none => True
  | some a, some b => a < b

instance : DecidablePred (fun p : W × W => wle p.1 p.2) := fun p => by
  rcases p with ⟨_ | a, _ | b⟩ <;> simp only [wle] <;> infer_instance

instance wle.decidable (a b : W) : Decidable (wle a b) := by
  rcases a with _ | a <;> rcases b with _ | b <;>
    simp only [wle] <;> infer_instance

instance wlt.decidable (a b : W) : Decidable (wlt a b) := by
  rcases a with _ | a <;> rcases b with _ | b <;>
    simp only [wlt] <;> infer_instance

/-- Python's `sum` of a list of extended travel times. -/
def wsum (l : List W) : W := l.foldl wadd (some 0)

/-- `gtfs.py` `Edge`: a directed edge of the consolidated graph.
`DoTransfer` objects are edges with empty `intermediate_stops` whose
`duration` is the transfer time. -/
structure Edge where
  from_id : String
  to_id : String
  duration : ℚ
  intermediate_stops : List String
deriving DecidableEq, Repr

/-- `gtfs.py` `Transfer` (after consolidation in `Feed.__init__`). -/
structure Transfer where
  from_stop : String
  to_stop : String
  min_transfer_time : ℚ
deriving DecidableEq, Repr

/-- The state of a constructed `gtfs.py` `Feed`: the keys of `self.stops`
(consolidated stations), the edge dictionary flattened to a list (at most
one entry per ordered pair in any feed the constructor builds), and the
transfer dictionary flattened to a list. -/
structure Feed where
  stops : List String
  edges : List Edge
  transfers : List Transfer
deriving DecidableEq, Repr

/-- `Feed.neighbors`: the edges out of `from_stop` followed by a
`DoTransfer` pseudo-edge for every non-self transfer out of it. -/
def Feed.neighbors (f : Feed) (from_stop : String) : List Edge :=
  f.edges.filter (fun e => e.from_id = from_stop) ++
    (f.transfers.filter
        (fun t => t.from_stop = from_stop ∧ t.to_stop ≠ from_stop)).map
      (fun t => ⟨t.from_stop, t.to_stop, t.min_transfer_time, []⟩)

/-- `sum(1 for _ in feed.neighbors(stop))`. -/
def Feed.neighborCount (f : Feed) (stop : String) : Nat :=
  (f.neighbors stop).length

/-- `Feed.leaves`: stops with exactly one neighbor. -/
def Feed.leaves (f : Feed) : List String :=
  f.stops.filter (fun s => f.neighborCount s = 1)

/-- Lookup in the edge dictionary `self.edges[from][to]`. -/
def Feed.edgeLookup (f : Feed) (a b : String) : Option Edge :=
  f.edges.find? (fun e => e.from_id = a ∧ e.to_id = b)

/-- Lookup in the transfer dictionary `self.transfers[from][to]`. -/
def Feed.transferLookup (f : Feed) (a b : String) : Option Transfer :=
  f.transfers.find? (fun t => t.from_stop = a ∧ t.to_stop = b)

/-- `Feed.distance`: `0` on the diagonal, otherwise the minimum of the
direct edge duration and the direct transfer time (`inf` if neither). -/
def Feed.distance (f : Feed) (a b : String) : W :=
  if a = b then some 0
  else
    let d : W := match f.edgeLookup a b with
      | some e => some e.duration
      | none => none
    match f.transferLookup a b with
    | some t => wmin d (some t.min_transfer_time)
    | none => d

/-- A distance matrix, as a function (the Python dict-of-dicts). -/
abbrev Mat : Type := String → String → W

/-- Overwrite one entry of a matrix. -/
def mset (m : Mat) (i j : String) (v : W) : Mat :=
  fun a b => if a = i ∧ b = j then v else m a b

/-- One in-place relaxation `d[i][j] = min(d[i][j], d[i][k] + d[k][j])`
(the Python guard `if d[i][j] > dist: d[i][j] = dist` written as a `min`).
-/
def fwUpdate (m : Mat) (k i j : String) : Mat :=
  mset m i j (wmin (m i j) (wadd (m i k) (m k j)))

/-- The two inner loops `for i: for j:` of the relaxation for pivot `k`. -/
def fwPass (stops : List String) (m : Mat) (k : String) : Mat :=
  stops.foldl (fun m i => stops.foldl (fun m j => fwUpdate m k i j) m) m

/-- The full triple loop `for k: for i: for j:` of
`Feed.shortest_path_lengths`, starting from the direct-distance matrix. -/
def fw (stops : List String) (m : Mat) : Mat :=
  stops.foldl (fwPass stops) m

/-- The relaxed all-pairs matrix of a feed (the value of
`self._shortest_path_lengths` after the triple loop). -/
def Feed.fwMatrix (f : Feed) : Mat :=
  fw f.stops f.distance

/-- The final check of `Feed.shortest_path_lengths`: scan all pairs in
iteration order and fail on the first pair whose entry is still infinite,
naming both stations; otherwise return the matrix. -/
def Feed.shortestPathLengths (f : Feed) : Except (String × String) Mat :=
  let F := f.fwMatrix
  match (f.stops.flatMap (fun i => f.stops.map (fun j => (i, j)))).find?
      (fun p => F p.1 p.2 = none) with
  | some p => .error p
  | none => .ok F

/-- The `while True` walk of `Feed.leaf_branch_length`: follow the unique
unvisited neighbor until none or several remain, returning the final
`node`.  The walk adds a fresh station to `history` at every step, so any
fuel bound larger than the number of edge/transfer targets is exact. -/
def Feed.branchEnd (f : Feed) : Nat → String → List String → String
  | 0, node, _ => node
  | fuel + 1, node, history =>
    match (((f.neighbors node).map Edge.to_id).dedup.filter
        (fun x => x ∉ history)) with
    | [next] => f.branchEnd fuel next (next :: history)
    | _ => node

/-- Fuel that the `leaf_branch_length` walk can never exhaust. -/
def Feed.branchFuel (f : Feed) : Nat :=
  f.stops.length + f.edges.length + f.transfers.length + 1

/-- `Feed.leaf_branch_length[leaf]`: the shortest-path distance from the
end of the leaf's forced corridor back to the leaf. -/
def Feed.leafBranchLength (f : Feed) (leaf : String) : W :=
  f.fwMatrix (f.branchEnd f.branchFuel leaf [leaf]) leaf

/-- `tour.py` `heuristic`: if some unvisited stop is a leaf, the sum of
the leaf-branch lengths of the unvisited leaves; otherwise the maximum
shortest-path distance from `from_node` to an unvisited stop.  `none`
models the `ValueError` that `max` raises on an empty sequence. -/
def heuristic (f : Feed) (from_node : String) (remaining : List String) :
    Option W :=
  let leaves := f.leaves.filter (fun s => s ∈ remaining)
  if leaves ≠ [] then
    some (wsum (leaves.map f.leafBranchLength))
  else
    match remaining.map (fun stop => f.fwMatrix from_node stop) with
    | [] => none
    | x :: xs => some (xs.foldl wmax x)

/-- Modelled from the spec: the max-shortest-path heuristic variant, "the
maximum, over all unvisited stations, of the shortest-path distance from
the current station". -/
def maxVariant (f : Feed) (from_node : String) (remaining : List String) :
    Option W :=
  match remaining.map (fun stop => f.fwMatrix from_node stop) with
  | [] => none
  | x :: xs => some (xs.foldl wmax x)

/-- Modelled from the spec: the leaf-branch heuristic variant, "the sum of
leaf-branch lengths over all unvisited leaves". -/
def leafSumVariant (f : Feed) (remaining : List String) : W :=
  wsum ((f.leaves.filter (fun s => s ∈ remaining)).map f.leafBranchLength)

/-- `tour.py` `SearchNode` (the `frozenset` is carried as a list with set
membership semantics). -/
structure SearchNode where
  remaining_stops : List String
  path : List String
  path_cost : ℚ
  f_cost : W
deriving DecidableEq, Repr

/-- Failures that can escape the search: the `ValueError` raised by `max`
on an empty sequence inside `heuristic`, the `ValueError("No solution!")`,
and an out-of-fuel marker of the embedding (never hit with enough fuel). -/
inductive RunErr where
  | maxOfEmpty
  | noSolution
  | fuelExhausted
deriving DecidableEq, Repr

deriving instance DecidableEq for Except

/-- Exception-propagating map (a generator that raises mid-iteration). -/
def mapMExc {α β : Type} (g : α → Except RunErr β) :
    List α → Except RunErr (List β)
  | [] => .ok []
  | x :: xs =>
    match g x with
    | .error e => .error e
    | .ok y => (mapMExc g xs).map (fun ys => y :: ys)

/-- Building one successor in `SearchNode.successors`: accumulate the edge
duration, drop the destination and the edge's intermediate stops from the
unvisited set, and recompute `f_cost = cost + heuristic(...)`. -/
def mkSucc (f : Feed) (n : SearchNode) (e : Edge) : Except RunErr SearchNode :=
  let cost := n.path_cost + e.duration
  let remaining := n.remaining_stops.filter
    (fun s => s ≠ e.to_id ∧ s ∉ e.intermediate_stops)
  match heuristic f e.to_id remaining with
  | none => .error .maxOfEmpty
  | some h => .ok ⟨remaining, n.path ++ [e.to_id], cost, wadd (some cost) h⟩

/-- `SearchNode.successors`.  An empty path expands to one start node per
degree-1 stop.  Otherwise the neighbors of the last stop are enumerated;
already-visited neighbors are skipped while an unvisited one exists, and a
single unvisited neighbor is a forced move that recurses immediately
(`yield from succ.successors(feed); return`).  Fuel only bounds that
recursion, which consumes an unvisited stop at every step. -/
def successorsFuel (f : Feed) : Nat → SearchNode → Except RunErr (List SearchNode)
  | 0, _ => .error .fuelExhausted
  | fuel + 1, n =>
    match n.path.getLast? with
    | none =>
      mapMExc
        (fun stop =>
          let remaining := n.remaining_stops.filter (fun s => s ≠ stop)
          match heuristic f stop remaining with
          | none => .error .maxOfEmpty
          | some h => .ok ⟨remaining, [stop], 0, h⟩)
        (f.stops.filter (fun s => f.neighborCount s = 1))
    | some last =>
      let neighbors := f.neighbors last
      match neighbors.filter (fun e => e.to_id ∈ n.remaining_stops) with
      | [e] =>
        match mkSucc f n e with
        | .error er => .error er
        | .ok succ => successorsFuel f fuel succ
      | new_neighbors =>
        mapMExc (mkSucc f n) (if new_neighbors.isEmpty then neighbors else new_neighbors)

/-- Successor expansion with fuel that the forced-move recursion cannot
exhaust (each recursive step removes an unvisited stop). -/
def SearchNode.successors (f : Feed) (n : SearchNode) :
    Except RunErr (List SearchNode) :=
  successorsFuel f (n.remaining_stops.length + 1) n

/-- `heapq.heappop`: remove a node of minimal `f_cost` (the leftmost one,
matching `SearchNode.__lt__` comparing only `f_cost`). -/
def popMin : List SearchNode → Option (SearchNode × List SearchNode)
  | [] => none
  | x :: xs =>
    match popMin xs with
    | none => some (x, [])
    | some (m, rest) =>
      if wlt m.f_cost x.f_cost then some (m, x :: rest) else some (x, xs)

/-- A search state `(succ.path[-1], succ.remaining_stops)`. -/
abbrev HState : Type := String × List String

/-- Equality of states: same station and the same unvisited set
(`frozenset` equality on the carried lists). -/
def stateEq (a b : HState) : Prop :=
  a.1 = b.1 ∧ (∀ x ∈ a.2, x ∈ b.2) ∧ (∀ x ∈ b.2, x ∈ a.2)

instance (a b : HState) : Decidable (stateEq a b) := by
  unfold stateEq; infer_instance

/-- `history[state]` lookup (most recent binding wins). -/
def histFind (h : List (HState × W)) (st : HState) : Option W :=
  (h.find? (fun e => stateEq e.1 st)).map Prod.snd

/-- `history[state] = v` (new binding shadows older ones). -/
def histInsert (h : List (HState × W)) (st : HState) (v : W) :
    List (HState × W) :=
  (st, v) :: h

/-- Processing the successors of a popped node: prune a successor when the
history already holds an equal-or-better `f_cost` for its state, otherwise
record it and enqueue it. -/
def pushSuccs (queue : List SearchNode) (hist : List (HState × W)) :
    List SearchNode → List SearchNode × List (HState × W)
  | [] => (queue, hist)
  | succ :: rest =>
    let st : HState := (succ.path.getLast?.getD "", succ.remaining_stops)
    match histFind hist st with
    | some old =>
      if wle old succ.f_cost then pushSuccs queue hist rest
      else pushSuccs (queue ++ [succ]) (histInsert hist st succ.f_cost) rest
    | none => pushSuccs (queue ++ [succ]) (histInsert hist st succ.f_cost) rest

/-- The main loop of `tour.py` `search`, with fuel for the unbounded
`while queue:` loop. -/
def searchLoop (f : Feed) : Nat → List SearchNode → List (HState × W) →
    Except RunErr SearchNode
  | 0, _, _ => .error .fuelExhausted
  | fuel + 1, queue, hist =>
    match popMin queue with
    | none => .error .noSolution
    | some (node, rest) =>
      if node.remaining_stops.isEmpty then .ok node
      else
        match node.successors f with
        | .error e => .error e
        | .ok succs =>
          let qh := pushSuccs rest hist succs
          searchLoop f fuel qh.1 qh.2

/-- `tour.py` `search`: start from the node whose unvisited set is every
stop, with empty path and zero costs. -/
def search (f : Feed) (fuel : Nat) : Except RunErr SearchNode :=
  searchLoop f fuel [⟨f.stops, [], 0, some 0⟩] []

/-! ### Concrete feeds for the end-to-end scenarios -/

/-- An edge with no intermediate stops. -/
def mkEdge (a b : String) (d : ℚ) : Edge := ⟨a, b, d, []⟩

/-- Scenario A: the 4-station line A–B–C–D, every edge 60 seconds in both
directions, no transfers. -/
def lineFeed4 : Feed :=
  ⟨["A", "B", "C", "D"],
   [mkEdge "A" "B" 60, mkEdge "B" "A" 60, mkEdge "B" "C" 60,
    mkEdge "C" "B" 60, mkEdge "C" "D" 60, mkEdge "D" "C" 60],
   []⟩

/-- Scenario B: the same line plus a bidirectional transfer A↔D of 30. -/
def lineFeed4T : Feed :=
  ⟨["A", "B", "C", "D"],
   [mkEdge "A" "B" 60, mkEdge "B" "A" 60, mkEdge "B" "C" 60,
    mkEdge "C" "B" 60, mkEdge "C" "D" 60, mkEdge "D" "C" 60],
   [⟨"A", "D", 30⟩, ⟨"D", "A", 30⟩]⟩

/-- A star: center X with three leaves P, Q, R at 60 seconds. -/
def starFeed : Feed :=
  ⟨["X", "P", "Q", "R"],
   [mkEdge "X" "P" 60, mkEdge "P" "X" 60, mkEdge "X" "Q" 60,
    mkEdge "Q" "X" 60, mkEdge "X" "R" 60, mkEdge "R" "X" 60],
   []⟩

/-- A 3-cycle: no station has exactly one neighbor, yet a covering walk
exists. -/
def triFeed : Feed :=
  ⟨["A", "B", "C"],
   [mkEdge "A" "B" 60, mkEdge "B" "A" 60, mkEdge "B" "C" 60,
    mkEdge "C" "B" 60, mkEdge "C" "A" 60, mkEdge "A" "C" 60],
   []⟩

/-- A two-station connected feed. -/
def pairFeed : Feed :=
  ⟨["A", "B"], [mkEdge "A" "B" 60, mkEdge "B" "A" 60], []⟩

/-- The feed with no stations at all. -/
def emptyFeed : Feed := ⟨[], [], []⟩

/-! ### Walks in the consolidated graph -/

/-- The cost of the walk `a :: l` under step cost `d`: the sum of the
step costs of consecutive pairs. -/
def chainCost (d : String → String → W) : String → List String → W
  | _, [] => some 0
  | a, b :: rest => wadd (d a b) (chainCost d b rest)

/-- The final vertex of the walk `a :: l`. -/
def chainEnd (a : String) (l : List String) : String :=
  l.getLast?.getD a

/-- Upper-bound invariant of the relaxation: after processing the pivots
in `S`, every matrix entry is at most the cost of every walk between its
endpoints whose intermediate vertices all lie in `S`. -/
def InvB (stops : List String) (d : Mat) (S : List String) (m : Mat) : Prop :=
  ∀ a b l, a ∈ stops → b ∈ stops → chainEnd a l = b →
    (∀ x ∈ l.dropLast, x ∈ S) → wle (m a b) (chainCost d a l)

/-- Attainability invariant of the relaxation: every finite matrix entry
is the cost of an actual walk (through `stops`) between its endpoints. -/
def InvA (stops : List String) (d : Mat) (m : Mat) : Prop :=
  ∀ a b, m a b = none ∨
    ∃ l, chainEnd a l = b ∧ (∀ x ∈ l.dropLast, x ∈ stops) ∧
      chainCost d a l = m a b

/-! ### The stop-times loading pipeline of `Feed.load` -/

/-- `gtfs.py` `Route` (the fields kept by `Route.parse`). -/
structure Route where
  route_id : String
  route_short_name : String
  route_long_name : String
deriving DecidableEq, Repr

/-- `gtfs.py` `Trip`. -/
structure Trip where
  trip_id : String
  route : Route
  direction_id : String
deriving DecidableEq, Repr

/-- `Trip.parse` after splitting the line into its used fields: fails
when the referenced route is not in `routes_by_id`. -/
def Trip.parse (route_id trip_id direction_id : String)
    (routes_by_id : List (String × Route)) : Except String Trip :=
  match routes_by_id.find? (fun e => e.1 = route_id) with
  | none => .error ("Unknown route_id " ++ route_id)
  | some e => .ok ⟨trip_id, e.2, direction_id⟩

/-- `arrival_hour * 60 * 60 + arrival_min * 60 + arrival_sec`. -/
def hmsToSeconds (h m s : ℤ) : ℤ :=
  h * 60 * 60 + m * 60 + s

/-- The `while arrival_time < last_arrival_time: arrival_time += 24*60*60`
loop: push an arrival forward by whole days until it is not before the
previous arrival. -/
def rollover (arrival last_arrival : ℤ) : ℤ :=
  if arrival < last_arrival then rollover (arrival + 24 * 60 * 60) last_arrival
  else arrival
termination_by (last_arrival - arrival).toNat
decreasing_by omega

/-- The duration recorded for one trip segment:
`arrival_time - last_arrival_time` after the rollover loop. -/
def segmentDuration (arrival last_arrival : ℤ) : ℤ :=
  rollover arrival last_arrival - last_arrival

/-- One row of `stop_times.txt` after field parsing (`arrival_time` in
seconds as parsed by `hmsToSeconds`). -/
structure StopTimeRec where
  trip_id : String
  stop_id : String
  arrival_time : ℤ
  stop_sequence : ℤ
deriving DecidableEq, Repr

/-- The loop state of the `stop_times.txt` pass of `Feed.load`. -/
structure STState where
  last_trip_id : String
  last_seq : ℤ
  last_stop_id : String
  last_arrival : ℤ
  edges : List ((String × String) × List ℤ)
  trips : List (String × List String)
  trips_by_stop : List (String × List Trip)
deriving Repr

/-- `edges[edge].append(duration)`, creating the sample list if absent. -/
def appendSample (m : List ((String × String) × List ℤ))
    (k : String × String) (v : ℤ) : List ((String × String) × List ℤ) :=
  if m.any (fun e => e.1 = k) then
    m.map (fun e => if e.1 = k then (e.1, e.2 ++ [v]) else e)
  else m ++ [(k, [v])]

/-- `trips[trip_id].append(stop_id)`, creating the list if absent. -/
def appendStop (m : List (String × List String)) (k v : String) :
    List (String × List String) :=
  if m.any (fun e => e.1 = k) then
    m.map (fun e => if e.1 = k then (e.1, e.2 ++ [v]) else e)
  else m ++ [(k, [v])]

/-- `trips_by_stop[stop_id].add(trip)` (a set: no duplicate trips). -/
def addTripByStop (m : List (String × List Trip)) (k : String) (t : Trip) :
    List (String × List Trip) :=
  if m.any (fun e => e.1 = k) then
    m.map (fun e => if e.1 = k then (e.1, if t ∈ e.2 then e.2 else e.2 ++ [t]) else e)
  else m ++ [(k, [t])]

/-- The body of the `for line in f:` loop over `stop_times.txt`: reject a
record whose trip is unknown, record the trip at the stop, and when the
record continues the previous trip with the next sequence number, record
a duration sample for the raw stop pair after midnight rollover. -/
def processStopTime (trips_by_id : List (String × Trip)) (st : STState)
    (r : StopTimeRec) : Except String STState :=
  match trips_by_id.find? (fun e => e.1 = r.trip_id) with
  | none => .error ("Unknown trip_id: " ++ r.trip_id)
  | some e =>
    let st1 : STState :=
      { st with trips_by_stop := addTripByStop st.trips_by_stop r.stop_id e.2 }
    let step : ℤ × STState :=
      if r.trip_id = st1.last_trip_id ∧ r.stop_sequence = st1.last_seq + 1 then
        let a := rollover r.arrival_time st1.last_arrival
        (a, { st1 with
              edges := appendSample st1.edges (st1.last_stop_id, r.stop_id)
                (a - st1.last_arrival) })
      else (r.arrival_time, st1)
    .ok { step.2 with
          last_trip_id := r.trip_id
          last_seq := r.stop_sequence
          last_stop_id := r.stop_id
          last_arrival := step.1
          trips := appendStop step.2.trips r.trip_id r.stop_id }

/-- The full `stop_times.txt` pass, starting from the sentinel state
(`last_trip_id = ""`, `last_seq = -1`, `last_arrival = 0`). -/
def loadStopTimes (trips_by_id : List (String × Trip))
    (records : List StopTimeRec) : Except String STState :=
  records.foldlM (processStopTime trips_by_id) ⟨"", -1, "-1", 0, [], [], []⟩

/-- `Edge(from_id, to_id, sum(times) / len(times))`: average every raw
pair's duration samples into one edge. -/
def buildEdges (samples : List ((String × String) × List ℤ)) : List Edge :=
  samples.map (fun e => ⟨e.1.1, e.1.2, (e.2.sum : ℚ) / (e.2.length : ℚ), []⟩)

/-- Rewriting an edge through `self.stop_equivalents` (the parent-chain
resolution map, passed here as a function). -/
def resolveEdge (eq : String → String) (e : Edge) : Edge :=
  ⟨eq e.from_id, eq e.to_id, e.duration, e.intermediate_stops.map eq⟩

/-- `self.edges[from_stop][to_stop] = edge`: dictionary write, replacing
any previous edge for the same ordered pair. -/
def upsertEdge (m : List ((String × String) × Edge)) (k : String × String)
    (v : Edge) : List ((String × String) × Edge) :=
  if m.any (fun en => en.1 = k) then
    m.map (fun en => if en.1 = k then (k, v) else en)
  else m ++ [(k, v)]

/-- The edge-consolidation loop of `Feed.__init__`: resolve both endpoints
of every edge and write it into the nested dictionary (flattened here to
an association list keyed by the ordered pair). -/
def consolidateEdges (eq : String → String) (edges : List Edge) :
    List ((String × String) × Edge) :=
  edges.foldl
    (fun m e =>
      let r := resolveEdge eq e
      upsertEdge m (r.from_id, r.to_id) r) []

/-- Dictionary lookup in the consolidated edge collection. -/
def edgesLookup (m : List ((String × String) × Edge)) (k : String × String) :
    Option Edge :=
  (m.find? (fun en => en.1 = k)).map Prod.snd

/-! ### Order lemmas for extended travel times -/

lemma wle_refl (a : W) : wle a a := by
  rcases a with _ | a <;> simp [wle]

lemma wle_none (a : W) : wle a none := by
  rcases a with _ | a <;> simp [wle]

lemma wle_trans {a b c : W} (h1 : wle a b) (h2 : wle b c) : wle a c := by
  rcases a with _ | a <;> rcases b with _ | b <;> rcases c with _ | c <;>
    simp [wle] at * <;> linarith

lemma wadd_le_wadd {a b c d : W} (h1 : wle a b) (h2 : wle c d) :
    wle (wadd a c) (wadd b d) := by
  rcases a with _ | a <;> rcases b with _ | b <;> rcases c with _ | c <;>
    rcases d with _ | d <;> simp [wle, wadd] at * <;> linarith

lemma wmin_le_left (a b : W) : wle (wmin a b) a := by
  rcases a with _ | a <;> rcases b with _ | b
  · exact wle_refl none
  · exact wle_none (some b)
  · exact wle_refl (some a)
  · simp only [wmin, wle]
    split_ifs with h
    · exact le_refl a
    · linarith

lemma wmin_le_right (a b : W) : wle (wmin a b) b := by
  rcases a with _ | a <;> rcases b with _ | b
  · exact wle_refl none
  · exact wle_refl (some b)
  · exact wle_none (some a)
  · simp only [wmin, wle]
    split_ifs with h
    · exact h
    · exact le_refl b

lemma wmin_eq_left {a b : W} (h : wle a b) : wmin a b = a := by
  rcases a with _ | a <;> rcases b with _ | b
  · rfl
  · exact absurd h (by simp [wle])
  · rfl
  · simp only [wle] at h
    simp only [wmin, if_pos h]

lemma wadd_nonneg {a b : W} (h1 : wle (some 0) a) (h2 : wle (some 0) b) :
    wle (some 0) (wadd a b) := by
  rcases a with _ | a <;> rcases b with _ | b <;>
    simp only [wle, wadd] at * <;> try trivial
  linarith

lemma wmin_nonneg {a b : W} (h1 : wle (some 0) a) (h2 : wle (some 0) b) :
    wle (some 0) (wmin a b) := by
  rcases a with _ | a <;> rcases b with _ | b <;>
    simp only [wle, wmin] at * <;> try trivial
  split_ifs with h
  · exact h1
  · exact h2

lemma wle_wadd_right {b : W} (a : W) (h : wle (some 0) b) :
    wle a (wadd a b) := by
  rcases a with _ | a <;> rcases b with _ | b <;> simp [wle, wadd] at * <;> linarith

lemma wle_wadd_left {a : W} (b : W) (h : wle (some 0) a) :
    wle b (wadd a b) := by
  rcases a with _ | a <;> rcases b with _ | b <;> simp [wle, wadd] at * <;> linarith

lemma wadd_zero_right (a : W) : wadd a (some 0) = a := by
  rcases a with _ | a <;> simp [wadd]

lemma wadd_zero_left (a : W) : wadd (some 0) a = a := by
  rcases a with _ | a <;> simp [wadd]

lemma wadd_assoc (a b c : W) : wadd (wadd a b) c = wadd a (wadd b c) := by
  rcases a with _ | a <;> rcases b with _ | b <;> rcases c with _ | c <;>
    simp [wadd] <;> ring

lemma wadd_ne_none {a b : W} (h : wadd a b ≠ none) :
    a ≠ none ∧ b ≠ none := by
  rcases a with _ | a <;> rcases b with _ | b <;> simp [wadd] at *

lemma wmin_cases (a b : W) : wmin a b = a ∨ wmin a b = b := by
  rcases a with _ | a <;> rcases b with _ | b
  · exact Or.inl rfl
  · exact Or.inr rfl
  · exact Or.inl rfl
  · simp only [wmin]
    split_ifs with h
    · exact Or.inl rfl
    · exact Or.inr rfl

lemma wmax_le {a b c : W} (h1 : wle a c) (h2 : wle b c) :
    wle (wmax a b) c := by
  rcases a with _ | a <;> rcases b with _ | b <;> rcases c with _ | c <;>
    simp only [wle, wmax] at * <;> try trivial
  split_ifs with h
  · exact h2
  · exact h1

/-! ### Walk cost lemmas -/

lemma chainEnd_nil (a : String) : chainEnd a [] = a := rfl

lemma chainEnd_append (a : String) (l1 l2 : List String) :
    chainEnd a (l1 ++ l2) = chainEnd (chainEnd a l1) l2 := by
  rcases l2.eq_nil_or_concat with h | ⟨l2', x, h⟩
  · simp [h, chainEnd]
  · subst h
    simp [chainEnd, List.getLast?_append, List.getLast?_concat]

lemma chainEnd_concat (a : String) (l : List String) (x : String) :
    chainEnd a (l ++ [x]) = x := by
  simp [chainEnd, List.getLast?_concat]

lemma chainEnd_cons (a x : String) (xs : List String) :
    chainEnd a (x :: xs) = chainEnd x xs := by
  cases hx : xs.getLast? with
  | none =>
    have hnil : xs = [] := by
      cases xs with
      | nil => rfl
      | cons y ys => simp at hx
    subst hnil; rfl
  | some z =>
    have h1 : (x :: xs).getLast? = some z := by
      cases xs with
      | nil => simp at hx
      | cons y ys => rw [List.getLast?_cons_cons]; exact hx
    simp [chainEnd, h1, hx]

lemma chainCost_append (d : String → String → W) (a : String)
    (l1 l2 : List String) :
    chainCost d a (l1 ++ l2) =
      wadd (chainCost d a l1) (chainCost d (chainEnd a l1) l2) := by
  induction l1 generalizing a with
  | nil => simp [chainCost, chainEnd_nil, wadd_zero_left]
  | cons x xs ih =>
    simp only [List.cons_append, chainCost, chainEnd_cons]
    rw [show xs.append l2 = xs ++ l2 from rfl, ih x, ← wadd_assoc]

lemma chainCost_nonneg {d : String → String → W}
    (hd : ∀ a b, wle (some 0) (d a b)) (a : String) (l : List String) :
    wle (some 0) (chainCost d a l) := by
  induction l generalizing a with
  | nil => simp [chainCost, wle]
  | cons b rest ih => exact wadd_nonneg (hd a b) (ih b)

/-! ### List helper lemmas -/

lemma exists_first_split {x : String} {l : List String} (h : x ∈ l) :
    ∃ l1 l2, l = l1 ++ x :: l2 ∧ x ∉ l1 := by
  induction l with
  | nil => cases h
  | cons y ys ih =>
    by_cases hxy : x = y
    · exact ⟨[], ys, by simp [hxy], by simp⟩
    · have hx : x ∈ ys := by
        rcases List.mem_cons.mp h with h1 | h1
        · exact absurd h1 hxy
        · exact h1
      obtain ⟨l1, l2, heq, hnm⟩ := ih hx
      exact ⟨y :: l1, l2, by simp [heq], by simp [hnm, Ne.symm, hxy]⟩

lemma exists_last_split {x : String} {l : List String} (h : x ∈ l) :
    ∃ l1 l2, l = l1 ++ x :: l2 ∧ x ∉ l2 := by
  have h' : x ∈ l.reverse := by simpa using h
  obtain ⟨r1, r2, heq, hnm⟩ := exists_first_split h'
  refine ⟨r2.reverse, r1.reverse, ?_, by simpa using hnm⟩
  have := congrArg List.reverse heq
  simpa [List.reverse_append] using this

lemma mem_of_mem_dropLast {x : String} {l : List String}
    (h : x ∈ l.dropLast) : x ∈ l :=
  List.dropLast_subset l h

lemma getLast?_eq_some_of_chainEnd {a b : String} {l : List String}
    (hl : l ≠ []) (hend : chainEnd a l = b) : l.getLast? = some b := by
  cases h : l.getLast? with
  | none => exact absurd (List.getLast?_eq_none_iff.mp h) hl
  | some z =>
    simp only [chainEnd, h, Option.getD_some] at hend
    rw [hend]

lemma eq_dropLast_concat_of_chainEnd {a b : String} {l : List String}
    (hl : l ≠ []) (hend : chainEnd a l = b) : l = l.dropLast ++ [b] := by
  have h1 := List.dropLast_append_getLast hl
  have h2 : l.getLast hl = b := by
    have := getLast?_eq_some_of_chainEnd hl hend
    rw [List.getLast?_eq_getLast l hl] at this
    exact Option.some_injective _ this
  rw [← h2]
  exact h1.symm

lemma mem_stops_of_walk {stops : List String} {a b : String}
    {l : List String} (hint : ∀ x ∈ l.dropLast, x ∈ stops)
    (hend : chainEnd a l = b) (hb : b ∈ stops) : ∀ x ∈ l, x ∈ stops := by
  intro x hx
  rcases List.eq_nil_or_concat l with rfl | ⟨l', y, hly⟩
  · cases hx
  · have hne : l ≠ [] := by rw [hly, List.concat_eq_append]; simp
    have heq := eq_dropLast_concat_of_chainEnd hne hend
    rw [heq] at hx
    rcases List.mem_append.mp hx with h | h
    · exact hint x h
    · rw [List.mem_singleton.mp h]
      exact hb

lemma mem_dropLast_append {x : String} {l1 l2 : List String}
    (h : x ∈ (l1 ++ l2).dropLast) : x ∈ l1 ∨ x ∈ l2.dropLast := by
  rcases List.eq_nil_or_concat l2 with rfl | ⟨l2', y, hly⟩
  · rw [List.append_nil] at h
    exact Or.inl (mem_of_mem_dropLast h)
  · rw [hly, List.concat_eq_append, ← List.append_assoc,
      List.dropLast_concat] at h
    rcases List.mem_append.mp h with h | h
    · exact Or.inl h
    · refine Or.inr ?_
      rw [hly, List.concat_eq_append, List.dropLast_concat]
      exact h

/-! ### The relaxation loops: decrease and pivot bounds -/

lemma fwUpdate_self (m : Mat) (k i j : String) :
    fwUpdate m k i j i j = wmin (m i j) (wadd (m i k) (m k j)) := by
  simp [fwUpdate, mset]

lemma fwUpdate_le (m : Mat) (k i j a b : String) :
    wle (fwUpdate m k i j a b) (m a b) := by
  unfold fwUpdate mset
  split_ifs with h
  · obtain ⟨rfl, rfl⟩ := h
    exact wmin_le_left _ _
  · exact wle_refl _

lemma foldl_entry_le {β : Type} {step : Mat → β → Mat}
    (hstep : ∀ m x a b, wle (step m x a b) (m a b)) :
    ∀ (l : List β) (m : Mat) (a b : String),
      wle ((l.foldl step m) a b) (m a b) := by
  intro l
  induction l with
  | nil => intro m a b; exact wle_refl _
  | cons x xs ih =>
    intro m a b
    exact wle_trans (ih (step m x) a b) (hstep m x a b)

lemma foldl_pred {β : Type} {P : Mat → Prop} {step : Mat → β → Mat}
    (hstep : ∀ m x, P m → P (step m x)) :
    ∀ (l : List β) (m : Mat), P m → P (l.foldl step m) := by
  intro l
  induction l with
  | nil => intro m h; exact h
  | cons x xs ih => intro m h; exact ih (step m x) (hstep m x h)

lemma inner_entry_le (stops : List String) (m : Mat) (k i a b : String) :
    wle ((stops.foldl (fun m j => fwUpdate m k i j) m) a b) (m a b) :=
  foldl_entry_le (fun m x a b => fwUpdate_le m k i x a b) stops m a b

lemma fwPass_entry_le (stops : List String) (m : Mat) (k a b : String) :
    wle (fwPass stops m k a b) (m a b) :=
  foldl_entry_le (fun m x a b => inner_entry_le stops m k x a b) stops m a b

lemma fw_entry_le (stops : List String) (m : Mat) (a b : String) :
    wle (fw stops m a b) (m a b) :=
  foldl_entry_le (fun m x a b => fwPass_entry_le stops m x a b) stops m a b

lemma inner_bound {m0 : Mat} {k a b : String} :
    ∀ (l : List String) (m : Mat), b ∈ l →
      (∀ x y, wle (m x y) (m0 x y)) →
      wle ((l.foldl (fun m j => fwUpdate m k a j) m) a b)
        (wadd (m0 a k) (m0 k b)) := by
  intro l
  induction l with
  | nil => intro m hb; cases hb
  | cons j js ih =>
    intro m hb hm
    by_cases hj : j = b
    · subst hj
      have h1 : wle (fwUpdate m k a j a j)
          (wadd (m0 a k) (m0 k j)) := by
        rw [fwUpdate_self]
        exact wle_trans (wmin_le_right _ _)
          (wadd_le_wadd (hm a k) (hm k j))
      exact wle_trans
        (foldl_entry_le (fun m x p q => fwUpdate_le m k a x p q) js _ a j) h1
    · have hb' : b ∈ js := by
        rcases List.mem_cons.mp hb with h | h
        · exact absurd h.symm hj
        · exact h
      exact ih (fwUpdate m k a j) hb'
        (fun x y => wle_trans (fwUpdate_le m k a j x y) (hm x y))

lemma outer_bound {stops : List String} {m0 : Mat} {k a b : String}
    (hb : b ∈ stops) :
    ∀ (l : List String) (m : Mat), a ∈ l →
      (∀ x y, wle (m x y) (m0 x y)) →
      wle ((l.foldl
          (fun m i => stops.foldl (fun m j => fwUpdate m k i j) m) m) a b)
        (wadd (m0 a k) (m0 k b)) := by
  intro l
  induction l with
  | nil => intro m ha; cases ha
  | cons i is ih =>
    intro m ha hm
    by_cases hi : i = a
    · subst hi
      have h1 := @inner_bound m0 k i b stops m hb hm
      exact wle_trans
        (foldl_entry_le (fun m x a b => inner_entry_le stops m k x a b) is _ i b) h1
    · have ha' : a ∈ is := by
        rcases List.mem_cons.mp ha with h | h
        · exact absurd h.symm hi
        · exact h
      exact ih (stops.foldl (fun m j => fwUpdate m k i j) m) ha'
        (fun x y => wle_trans (inner_entry_le stops m k i x y) (hm x y))

lemma fwPass_le_bound {stops : List String} {m : Mat} {k a b : String}
    (ha : a ∈ stops) (hb : b ∈ stops) :
    wle (fwPass stops m k a b) (wadd (m a k) (m k b)) :=
  outer_bound hb stops m ha (fun _ _ => wle_refl _)

/-! ### The upper-bound invariant -/

lemma InvB_base {stops : List String} {d : Mat}
    (hd0 : ∀ a, d a a = some 0) : InvB stops d [] d := by
  intro a b l ha hb hend hint
  cases l with
  | nil =>
    rw [chainEnd_nil] at hend
    subst hend
    rw [hd0 a]
    exact wle_refl _
  | cons x xs =>
    cases xs with
    | nil =>
      have hx : x = b := by simpa [chainEnd] using hend
      subst hx
      simp only [chainCost, wadd_zero_right]
      exact wle_refl _
    | cons y ys =>
      exfalso
      have hx : x ∈ (x :: y :: ys).dropLast := by
        simp [List.dropLast]
      exact (List.not_mem_nil x) (hint x hx)

lemma InvB_step {stops : List String} {d : Mat} {S : List String}
    {m : Mat} {k : String} (hd : ∀ a b, wle (some 0) (d a b))
    (hS : InvB stops d S m) (hk : k ∈ stops) :
    InvB stops d (S ++ [k]) (fwPass stops m k) := by
  intro a b l ha hb hend hint
  by_cases hkl : k ∈ l.dropLast
  case neg =>
    have hint' : ∀ x ∈ l.dropLast, x ∈ S := by
      intro x hx
      rcases List.mem_append.mp (hint x hx) with h | h
      · exact h
      · exact absurd (List.mem_singleton.mp h ▸ hx) hkl
    exact wle_trans (fwPass_entry_le stops m k a b) (hS a b l ha hb hend hint')
  case pos =>
    have hlne : l ≠ [] := by
      intro h
      rw [h] at hkl
      cases hkl
    have hl : l = l.dropLast ++ [b] := eq_dropLast_concat_of_chainEnd hlne hend
    obtain ⟨I1, I2, hsplit, hkI1⟩ := exists_first_split hkl
    have hI1S : ∀ x ∈ I1, x ∈ S := by
      intro x hx
      have hxd : x ∈ l.dropLast := by rw [hsplit]; simp [hx]
      rcases List.mem_append.mp (hint x hxd) with h | h
      · exact h
      · exact absurd (List.mem_singleton.mp h) (fun he => hkI1 (he ▸ hx))
    have hwalk1 : wle (m a k) (chainCost d a (I1 ++ [k])) := by
      refine hS a k (I1 ++ [k]) ha hk (chainEnd_concat a I1 k) ?_
      intro x hx
      rw [List.dropLast_concat] at hx
      exact hI1S x hx
    have hleq : l = (I1 ++ [k]) ++ (I2 ++ [b]) := by
      conv_lhs => rw [hl, hsplit]
      simp
    have hc1 : chainCost d a l =
        wadd (chainCost d a (I1 ++ [k])) (chainCost d k (I2 ++ [b])) := by
      rw [hleq, chainCost_append, chainEnd_concat]
    have hI2sub : ∀ x ∈ I2, x ∈ S ∨ x = k := by
      intro x hx
      have hxd : x ∈ l.dropLast := by rw [hsplit]; simp [hx]
      rcases List.mem_append.mp (hint x hxd) with h | h
      · exact Or.inl h
      · exact Or.inr (List.mem_singleton.mp h)
    refine wle_trans (fwPass_le_bound ha hb) ?_
    rw [hc1]
    by_cases hkI2 : k ∈ I2
    · obtain ⟨M, I3, hsplit2, hkI3⟩ := exists_last_split hkI2
      have hI2eq : I2 ++ [b] = (M ++ [k]) ++ (I3 ++ [b]) := by
        rw [hsplit2]; simp
      have hc2 : chainCost d k (I2 ++ [b]) =
          wadd (chainCost d k (M ++ [k])) (chainCost d k (I3 ++ [b])) := by
        rw [hI2eq, chainCost_append, chainEnd_concat]
      have hwalk2 : wle (m k b) (chainCost d k (I3 ++ [b])) := by
        refine hS k b (I3 ++ [b]) hk hb (chainEnd_concat k I3 b) ?_
        intro x hx
        rw [List.dropLast_concat] at hx
        have hxI2 : x ∈ I2 := by rw [hsplit2]; simp [hx]
        rcases hI2sub x hxI2 with h | h
        · exact h
        · exact absurd (h ▸ hx) hkI3
      have hloopn : wle (some 0) (chainCost d k (M ++ [k])) :=
        chainCost_nonneg hd k (M ++ [k])
      rw [hc2]
      exact wle_trans (wadd_le_wadd hwalk1 hwalk2)
        (wadd_le_wadd (wle_refl _) (wle_wadd_left _ hloopn))
    · have hwalk2 : wle (m k b) (chainCost d k (I2 ++ [b])) := by
        refine hS k b (I2 ++ [b]) hk hb (chainEnd_concat k I2 b) ?_
        intro x hx
        rw [List.dropLast_concat] at hx
        rcases hI2sub x hx with h | h
        · exact h
        · exact absurd (h ▸ hx) hkI2
      exact wadd_le_wadd hwalk1 hwalk2

lemma InvB_fold {stops : List String} {d : Mat}
    (hd : ∀ a b, wle (some 0) (d a b)) :
    ∀ (l2 : List String) (S : List String) (m : Mat), InvB stops d S m →
      (∀ k ∈ l2, k ∈ stops) →
      InvB stops d (S ++ l2) (l2.foldl (fwPass stops) m) := by
  intro l2
  induction l2 with
  | nil => intro S m h _; simpa using h
  | cons k ks ih =>
    intro S m h hks
    have h1 : InvB stops d (S ++ [k]) (fwPass stops m k) :=
      InvB_step hd h (hks k (by simp))
    have h2 := ih (S ++ [k]) (fwPass stops m k) h1
      (fun x hx => hks x (by simp [hx]))
    simpa using h2

lemma fw_le_chain {stops : List String} {d : Mat}
    (hd0 : ∀ a, d a a = some 0) (hd : ∀ a b, wle (some 0) (d a b))
    {a b : String} (ha : a ∈ stops) (hb : b ∈ stops) {l : List String}
    (hend : chainEnd a l = b) (hint : ∀ x ∈ l.dropLast, x ∈ stops) :
    wle (fw stops d a b) (chainCost d a l) := by
  have h := @InvB_fold stops d hd stops [] d (InvB_base hd0)
    (fun k hk => hk)
  exact h a b l ha hb hend (by simpa using hint)

/-! ### The attainability invariant -/

lemma fwUpdate_ne {m : Mat} {k i j a b : String}
    (h : ¬(a = i ∧ b = j)) : fwUpdate m k i j a b = m a b := by
  simp [fwUpdate, mset, h]

lemma InvA_base (stops : List String) (d : Mat) : InvA stops d d := by
  intro a b
  cases h : d a b with
  | none => exact Or.inl rfl
  | some q =>
    refine Or.inr ⟨[b], chainEnd_concat a [] b, by simp, ?_⟩
    simp [chainCost, wadd_zero_right, h]

lemma InvA_update {stops : List String} {d : Mat} {m : Mat} {k : String}
    (hA : InvA stops d m) (hk : k ∈ stops) (i j : String) :
    InvA stops d (fwUpdate m k i j) := by
  intro a b
  by_cases hab : a = i ∧ b = j
  · obtain ⟨rfl, rfl⟩ := hab
    rw [fwUpdate_self]
    rcases wmin_cases (m a b) (wadd (m a k) (m k b)) with hmin | hmin
    · rw [hmin]; exact hA a b
    · rw [hmin]
      cases hnn : wadd (m a k) (m k b) with
      | none => exact Or.inl rfl
      | some q =>
        have hne := wadd_ne_none (a := m a k) (b := m k b)
          (by rw [hnn]; exact Option.some_ne_none q)
        rcases hA a k with h1 | ⟨l1, hend1, hint1, hcost1⟩
        · exact absurd h1 hne.1
        rcases hA k b with h2 | ⟨l2, hend2, hint2, hcost2⟩
        · exact absurd h2 hne.2
        refine Or.inr ⟨l1 ++ l2, ?_, ?_, ?_⟩
        · rw [chainEnd_append, hend1, hend2]
        · intro x hx
          rcases mem_dropLast_append hx with h | h
          · exact mem_stops_of_walk hint1 hend1 hk x h
          · exact hint2 x h
        · rw [chainCost_append, hend1, hcost1, hcost2, hnn]
  · rw [fwUpdate_ne hab]
    exact hA a b

lemma InvA_fw {stops : List String} {d : Mat} :
    InvA stops d (fw stops d) := by
  have hpass : ∀ (m : Mat) (k : String), k ∈ stops → InvA stops d m →
      InvA stops d (fwPass stops m k) := by
    intro m k hk hA
    refine foldl_pred (P := InvA stops d) ?_ stops m hA
    intro m' i hA'
    exact foldl_pred (P := InvA stops d)
      (fun m'' j hA'' => InvA_update hA'' hk i j) stops m' hA'
  have : ∀ (l : List String) (m : Mat), (∀ k ∈ l, k ∈ stops) →
      InvA stops d m → InvA stops d (l.foldl (fwPass stops) m) := by
    intro l
    induction l with
    | nil => intro m _ h; exact h
    | cons k ks ih =>
      intro m hks h
      exact ih (fwPass stops m k)
        (fun x hx => hks x (by simp [hx]))
        (hpass m k (hks k (by simp)) h)
  exact this stops d (fun k hk => hk) (InvA_base stops d)

/-! ### Diagonal and non-negativity of the relaxed matrix -/

lemma fwUpdate_nonneg_diag {m : Mat} (k i j : String)
    (h : (∀ a b, wle (some 0) (m a b)) ∧ (∀ a, m a a = some 0)) :
    (∀ a b, wle (some 0) (fwUpdate m k i j a b)) ∧
      (∀ a, fwUpdate m k i j a a = some 0) := by
  obtain ⟨hn, hdg⟩ := h
  constructor
  · intro a b
    by_cases hab : a = i ∧ b = j
    · obtain ⟨rfl, rfl⟩ := hab
      rw [fwUpdate_self]
      exact wmin_nonneg (hn a b) (wadd_nonneg (hn a k) (hn k b))
    · rw [fwUpdate_ne hab]
      exact hn a b
  · intro a
    by_cases hab : a = i ∧ a = j
    · obtain ⟨rfl, h2⟩ := hab
      subst h2
      rw [fwUpdate_self, hdg a]
      exact wmin_eq_left (wadd_nonneg (hn a k) (hn k a))
    · rw [fwUpdate_ne hab]
      exact hdg a

lemma fw_nonneg_diag {stops : List String} {d : Mat}
    (hd0 : ∀ a, d a a = some 0) (hd : ∀ a b, wle (some 0) (d a b)) :
    (∀ a b, wle (some 0) (fw stops d a b)) ∧
      (∀ a, fw stops d a a = some 0) := by
  refine foldl_pred
    (P := fun m => (∀ a b, wle (some 0) (m a b)) ∧ (∀ a, m a a = some 0))
    ?_ stops d ⟨hd, hd0⟩
  intro m k hP
  refine foldl_pred
    (P := fun m => (∀ a b, wle (some 0) (m a b)) ∧ (∀ a, m a a = some 0))
    ?_ stops m hP
  intro m' i hP'
  exact foldl_pred
    (P := fun m => (∀ a b, wle (some 0) (m a b)) ∧ (∀ a, m a a = some 0))
    (fun m'' j h => fwUpdate_nonneg_diag k i j h) stops m' hP'

/-! ### Triangle inequality of the relaxed matrix -/

lemma fw_triangle {stops : List String} {d : Mat}
    (hd0 : ∀ a, d a a = some 0) (hd : ∀ a b, wle (some 0) (d a b))
    {x y z : String} (hx : x ∈ stops) (hy : y ∈ stops) (hz : z ∈ stops) :
    wle (fw stops d x y) (wadd (fw stops d x z) (fw stops d z y)) := by
  cases h1 : fw stops d x z with
  | none =>
    have hn : wadd none (fw stops d z y) = none := rfl
    rw [hn]
    exact wle_none _
  | some q1 =>
    cases h2 : fw stops d z y with
    | none =>
      have hn : wadd (some q1) none = none := rfl
      rw [hn]
      exact wle_none _
    | some q2 =>
      rcases @InvA_fw stops d x z with hc | ⟨l1, he1, hi1, hc1⟩
      · rw [hc] at h1; cases h1
      rcases @InvA_fw stops d z y with hc | ⟨l2, he2, hi2, hc2⟩
      · rw [hc] at h2; cases h2
      rw [h1] at hc1
      rw [h2] at hc2
      have hend : chainEnd x (l1 ++ l2) = y := by
        rw [chainEnd_append, he1, he2]
      have hint : ∀ w ∈ (l1 ++ l2).dropLast, w ∈ stops := by
        intro w hw
        rcases mem_dropLast_append hw with h | h
        · exact mem_stops_of_walk hi1 he1 hz w h
        · exact hi2 w h
      have hcost : chainCost d x (l1 ++ l2) = wadd (some q1) (some q2) := by
        rw [chainCost_append, he1, hc1, hc2]
      rw [← hcost]
      exact fw_le_chain hd0 hd hx hy hend hint

/-! ### Properties of `Feed.distance` and the final infinity check -/

lemma distance_diag (f : Feed) (a : String) : f.distance a a = some 0 := by
  simp [Feed.distance]

lemma distance_nonneg {f : Feed}
    (he : ∀ e ∈ f.edges, 0 ≤ e.duration)
    (ht : ∀ t ∈ f.transfers, 0 ≤ t.min_transfer_time) :
    ∀ a b, wle (some 0) (f.distance a b) := by
  intro a b
  unfold Feed.distance
  split_ifs with hab
  · exact wle_refl _
  · have h1 : wle (some 0)
        (match f.edgeLookup a b with
          | some e => some e.duration
          | none => none) := by
      cases hfind : f.edgeLookup a b with
      | none => exact wle_none _
      | some e =>
        have hmem : e ∈ f.edges ∧ (e.from_id = a ∧ e.to_id = b) := by
          have h2 := List.find?_some hfind
          have h3 := List.mem_of_find?_eq_some hfind
          simp only [decide_eq_true_eq] at h2
          exact ⟨h3, h2⟩
        exact he e hmem.1
    cases hfind : f.transferLookup a b with
    | none => exact h1
    | some t =>
      have hmem : t ∈ f.transfers := List.mem_of_find?_eq_some hfind
      exact wmin_nonneg h1 (ht t hmem)

lemma pairs_mem {stops : List String} {x y : String}
    (hx : x ∈ stops) (hy : y ∈ stops) :
    (x, y) ∈ stops.flatMap (fun i => stops.map (fun j => (i, j))) := by
  rw [List.mem_flatMap]
  exact ⟨x, hx, by rw [List.mem_map]; exact ⟨y, hy, rfl⟩⟩

lemma mem_pairs {stops : List String} {p : String × String}
    (hp : p ∈ stops.flatMap (fun i => stops.map (fun j => (i, j)))) :
    p.1 ∈ stops ∧ p.2 ∈ stops := by
  rw [List.mem_flatMap] at hp
  obtain ⟨i, hi, hmem⟩ := hp
  rw [List.mem_map] at hmem
  obtain ⟨j, hj, rfl⟩ := hmem
  exact ⟨hi, hj⟩

lemma spl_ok_entries {f : Feed} {M : Mat}
    (h : f.shortestPathLengths = .ok M) :
    M = f.fwMatrix ∧
      ∀ x ∈ f.stops, ∀ y ∈ f.stops, f.fwMatrix x y ≠ none := by
  simp only [Feed.shortestPathLengths] at h
  cases hfind : (f.stops.flatMap (fun i => f.stops.map (fun j => (i, j)))).find?
      (fun p => f.fwMatrix p.1 p.2 = none) with
  | some p => rw [hfind] at h; cases h
  | none =>
    rw [hfind] at h
    refine ⟨by injection h with h'; exact h'.symm, ?_⟩
    intro x hx y hy
    have := List.find?_eq_none.mp hfind (x, y) (pairs_mem hx hy)
    simpa using this

lemma spl_error_entry {f : Feed} {p : String × String}
    (h : f.shortestPathLengths = .error p) :
    p.1 ∈ f.stops ∧ p.2 ∈ f.stops ∧ f.fwMatrix p.1 p.2 = none := by
  simp only [Feed.shortestPathLengths] at h
  cases hfind : (f.stops.flatMap (fun i => f.stops.map (fun j => (i, j)))).find?
      (fun p => f.fwMatrix p.1 p.2 = none) with
  | none => rw [hfind] at h; cases h
  | some q =>
    rw [hfind] at h
    injection h with h'
    subst h'
    have h1 := List.find?_some hfind
    have h2 := List.mem_of_find?_eq_some hfind
    simp only [decide_eq_true_eq] at h1
    obtain ⟨hp1, hp2⟩ := mem_pairs h2
    exact ⟨hp1, hp2, h1⟩

lemma spl_error_of_infinite {f : Feed}
    (h : ∃ x ∈ f.stops, ∃ y ∈ f.stops, f.fwMatrix x y = none) :
    ∃ p, f.shortestPathLengths = .error p := by
  obtain ⟨x, hx, y, hy, hxy⟩ := h
  simp only [Feed.shortestPathLengths]
  cases hfind : (f.stops.flatMap (fun i => f.stops.map (fun j => (i, j)))).find?
      (fun p => f.fwMatrix p.1 p.2 = none) with
  | some q => exact ⟨q, rfl⟩
  | none =>
    exfalso
    have := List.find?_eq_none.mp hfind (x, y) (pairs_mem hx hy)
    simp only [decide_eq_true_eq] at this
    exact this hxy

/-! ### Admissibility of the max-shortest-path heuristic variant -/

lemma foldl_wmax_le {c : W} :
    ∀ (xs : List W) (x : W), wle x c → (∀ y ∈ xs, wle y c) →
      wle (xs.foldl wmax x) c := by
  intro xs
  induction xs with
  | nil => intro x hx _; exact hx
  | cons y ys ih =>
    intro x hx hys
    exact ih (wmax x y) (wmax_le hx (hys y (by simp)))
      (fun z hz => hys z (by simp [hz]))

lemma fw_le_cover {f : Feed}
    (he : ∀ e ∈ f.edges, 0 ≤ e.duration)
    (ht : ∀ t ∈ f.transfers, 0 ≤ t.min_transfer_time)
    {from_node : String} {l : List String}
    (hfrom : from_node ∈ f.stops) (hl : ∀ x ∈ l, x ∈ f.stops)
    {s : String} (hs : s ∈ l) :
    wle (f.fwMatrix from_node s) (chainCost f.distance from_node l) := by
  have hd0 := distance_diag f
  have hd := distance_nonneg he ht
  obtain ⟨p1, p2, rfl⟩ := List.append_of_mem hs
  have hleq : p1 ++ s :: p2 = (p1 ++ [s]) ++ p2 := by simp
  rw [hleq, chainCost_append, chainEnd_concat]
  have h1 : wle (f.fwMatrix from_node s)
      (chainCost f.distance from_node (p1 ++ [s])) := by
    refine fw_le_chain hd0 hd hfrom (hl s hs) (chainEnd_concat _ _ _) ?_
    intro x hx
    rw [List.dropLast_concat] at hx
    exact hl x (by simp [hx])
  exact wle_trans h1 (wle_wadd_right _ (chainCost_nonneg hd s p2))

/-! ### Claim theorems -/

/-- Claim C5: after the all-pairs shortest-path computation completes
without error, the matrix has zero diagonal, non-negative entries and
satisfies the triangle inequality over the consolidated stations; and
whenever some pair is still infinite after relaxation, the computation
fails fatally naming a pair of stations whose entry is infinite. -/
theorem C5_apsp_properties (f : Feed)
    (he : ∀ e ∈ f.edges, 0 ≤ e.duration)
    (ht : ∀ t ∈ f.transfers, 0 ≤ t.min_transfer_time) :
    (∀ M, f.shortestPathLengths = .ok M →
      (∀ x ∈ f.stops, M x x = some 0) ∧
      (∀ x ∈ f.stops, ∀ y ∈ f.stops, wle (some 0) (M x y)) ∧
      (∀ x ∈ f.stops, ∀ y ∈ f.stops, ∀ z ∈ f.stops,
        wle (M x y) (wadd (M x z) (M z y))) ∧
      (∀ x ∈ f.stops, ∀ y ∈ f.stops, M x y ≠ none)) ∧
    (∀ p, f.shortestPathLengths = .error p →
      p.1 ∈ f.stops ∧ p.2 ∈ f.stops ∧ f.fwMatrix p.1 p.2 = none) ∧
    ((∃ x ∈ f.stops, ∃ y ∈ f.stops, f.fwMatrix x y = none) →
      ∃ p, f.shortestPathLengths = .error p) := by
  have hd0 := distance_diag f
  have hd := distance_nonneg he ht
  refine ⟨?_, fun p hp => spl_error_entry hp, spl_error_of_infinite⟩
  intro M hM
  obtain ⟨rfl, hfin⟩ := spl_ok_entries hM
  have hnd := @fw_nonneg_diag f.stops f.distance hd0 hd
  exact ⟨fun x _ => hnd.2 x, fun x _ y _ => hnd.1 x y,
    fun x hx y hy z hz => fw_triangle hd0 hd hx hy hz,
    hfin⟩

/-- Witness for C5 at the two-station feed: the hypotheses hold and the
conclusion is instantiated concretely. -/
theorem C5_apsp_properties_witness :
    (∀ M, pairFeed.shortestPathLengths = .ok M →
      (∀ x ∈ pairFeed.stops, M x x = some 0) ∧
      (∀ x ∈ pairFeed.stops, ∀ y ∈ pairFeed.stops, wle (some 0) (M x y)) ∧
      (∀ x ∈ pairFeed.stops, ∀ y ∈ pairFeed.stops, ∀ z ∈ pairFeed.stops,
        wle (M x y) (wadd (M x z) (M z y))) ∧
      (∀ x ∈ pairFeed.stops, ∀ y ∈ pairFeed.stops, M x y ≠ none)) ∧
    (∀ p, pairFeed.shortestPathLengths = .error p →
      p.1 ∈ pairFeed.stops ∧ p.2 ∈ pairFeed.stops ∧
        pairFeed.fwMatrix p.1 p.2 = none) ∧
    ((∃ x ∈ pairFeed.stops, ∃ y ∈ pairFeed.stops,
        pairFeed.fwMatrix x y = none) →
      ∃ p, pairFeed.shortestPathLengths = .error p) :=
  C5_apsp_properties pairFeed (by decide) (by decide)

/-- Claim C2, counterexample: on the scenario-A line feed the search's
own initial expansion yields the start node anchored at A, whose forced
successor towards B carries the state (B, {C, D}); the heuristic value
of that state is 180, yet the walk B → C → D covers both unvisited
stations at cost 120, so the heuristic overestimates the true optimal
remaining cost. -/
theorem C2_counterexample_leaf_sum_overestimates :
    successorsFuel lineFeed4 5 ⟨lineFeed4.stops, [], 0, some 0⟩ =
      .ok [⟨["B", "C", "D"], ["A"], 0, some 180⟩,
           ⟨["A", "B", "C"], ["D"], 0, some 180⟩] ∧
    mkSucc lineFeed4 ⟨["B", "C", "D"], ["A"], 0, some 180⟩
        (mkEdge "A" "B" 60) =
      .ok ⟨["C", "D"], ["A", "B"], 60, some 240⟩ ∧
    heuristic lineFeed4 "B" ["C", "D"] = some (some 180) ∧
    chainCost lineFeed4.distance "B" ["C", "D"] = some 120 ∧
    ("C" ∈ ["C", "D"] ∧ "D" ∈ ["C", "D"]) ∧
    wlt (some 120) (some 180) := by
  decide

/-- Claim C2 (amended): the max-shortest-path variant of the heuristic
never exceeds the cost of any walk (through the graph's stations) from
the current station that covers all remaining stations — hence it never
exceeds the true optimal remaining cost; the leaf-branch-length-sum
variant that `heuristic` actually returns can overestimate. -/
theorem C2_max_variant_admissible (f : Feed)
    (he : ∀ e ∈ f.edges, 0 ≤ e.duration)
    (ht : ∀ t ∈ f.transfers, 0 ≤ t.min_transfer_time)
    (from_node : String) (remaining l : List String)
    (hfrom : from_node ∈ f.stops) (hl : ∀ x ∈ l, x ∈ f.stops)
    (hcov : ∀ s ∈ remaining, s ∈ l) (v : W)
    (hv : maxVariant f from_node remaining = some v) :
    wle v (chainCost f.distance from_node l) := by
  cases remaining with
  | nil => cases hv
  | cons s0 rest =>
    simp only [maxVariant, List.map_cons] at hv
    injection hv with hv
    subst hv
    refine foldl_wmax_le _ _ ?_ ?_
    · exact fw_le_cover he ht hfrom hl (hcov s0 (by simp))
    · intro y hy
      rw [List.mem_map] at hy
      obtain ⟨s, hsr, rfl⟩ := hy
      exact fw_le_cover he ht hfrom hl (hcov s (by simp [hsr]))

/-- Witness for the amended C2 on the scenario-A feed: the max variant
from A over all other stations is 180, and it is bounded by the cost of
the covering walk A → B → C → D. -/
theorem C2_max_variant_admissible_witness :
    wle (some 180) (chainCost lineFeed4.distance "A" ["B", "C", "D"]) :=
  C2_max_variant_admissible lineFeed4 (by decide) (by decide) "A"
    ["B", "C", "D"] ["B", "C", "D"] (by decide) (by decide) (by decide)
    (some 180) (by decide)

/-- Claim C3, counterexample: on the star feed, from leaf P with only Q
unvisited, both variants are defined; the leaf-branch-sum variant is 60,
the max-shortest-path variant is 120, their maximum is 120, but the
heuristic returns 60 — not the tighter (larger) of the two bounds. -/
theorem C3_counterexample_not_max_of_variants :
    heuristic starFeed "P" ["Q"] = some (some 60) ∧
    leafSumVariant starFeed ["Q"] = some 60 ∧
    maxVariant starFeed "P" ["Q"] = some (some 120) ∧
    wmax (some 60) (some 120) = some 120 ∧
    heuristic starFeed "P" ["Q"] ≠ some (wmax (some 60) (some 120)) := by
  decide

/-- Claim C3 (amended): whenever at least one unvisited station is a
leaf, the heuristic returns the leaf-branch-length-sum variant
(regardless of which variant is larger); only when no unvisited station
is a leaf does it return the max-shortest-path variant. -/
theorem C3_heuristic_variant_selection (f : Feed) (from_node : String)
    (remaining : List String) :
    (f.leaves.filter (fun s => s ∈ remaining) ≠ [] →
      heuristic f from_node remaining = some (leafSumVariant f remaining)) ∧
    (f.leaves.filter (fun s => s ∈ remaining) = [] →
      heuristic f from_node remaining = maxVariant f from_node remaining) := by
  constructor
  · intro h
    simp only [heuristic, leafSumVariant]
    rw [if_pos h]
  · intro h
    simp only [heuristic, maxVariant]
    rw [if_neg (fun hc => hc h)]

/-- Witness for the amended C3 at the star feed. -/
theorem C3_heuristic_variant_selection_witness :
    heuristic starFeed "P" ["Q"] = some (leafSumVariant starFeed ["Q"]) :=
  (C3_heuristic_variant_selection starFeed "P" ["Q"]).1 (by decide)

/-- Claim C1 (code bug): on the scenario-A line feed the search does not
return the tour; it raises the `ValueError` that `max` throws on an empty
sequence, because covering the last station calls the heuristic with an
empty unvisited set.  The walk A → B → C → D nevertheless covers every
stop at cost 180, which is what the claim expected `search` to return. -/
theorem C1_scenarioA_search_crashes :
    search lineFeed4 5 = .error .maxOfEmpty ∧
    chainCost lineFeed4.distance "A" ["B", "C", "D"] = some 180 ∧
    (∀ s ∈ lineFeed4.stops, s ∈ "A" :: ["B", "C", "D"]) := by
  decide

/-- Claim C4 (code bug): adding the bidirectional transfer A↔D of cost 30
gives every station two neighbors, so the initial expansion (restricted
to degree-1 stations) yields nothing and the search raises
`ValueError("No solution!")` instead of returning the tour of cost 180. -/
theorem C4_scenarioB_search_no_solution :
    search lineFeed4T 5 = .error .noSolution ∧
    lineFeed4T.leaves = [] ∧
    chainCost lineFeed4T.distance "A" ["B", "C", "D"] = some 180 ∧
    (∀ s ∈ lineFeed4T.stops, s ∈ "A" :: ["B", "C", "D"]) := by
  decide

/-- Claim C10, counterexample: the feed with no stations satisfies the
claim's hypothesis (no station has exactly one neighbor) but the search
returns the initial node successfully instead of raising. -/
theorem C10_counterexample_empty_feed :
    (∀ s ∈ emptyFeed.stops, emptyFeed.neighborCount s ≠ 1) ∧
    search emptyFeed 5 = .ok ⟨[], [], 0, some 0⟩ ∧
    search emptyFeed 5 ≠ .error .noSolution := by
  decide

/-- Claim C10 (amended): for every feed with at least one station in
which no station has exactly one neighbor, the initial expansion yields
no successor and the search fails with the no-solution error (with any
loop fuel that lets it pop the initial node and re-test the queue). -/
theorem C10_no_leaf_start_no_solution (f : Feed) (fuel : Nat)
    (hs : f.stops ≠ []) (h1 : ∀ s ∈ f.stops, f.neighborCount s ≠ 1)
    (hf : 2 ≤ fuel) :
    search f fuel = .error .noSolution := by
  obtain ⟨m, rfl⟩ : ∃ m, fuel = m + 1 + 1 := ⟨fuel - 2, by omega⟩
  show searchLoop f (m + 1 + 1) [⟨f.stops, [], 0, some 0⟩] [] =
    .error .noSolution
  have hpop : popMin [⟨f.stops, [], 0, some 0⟩] =
      some (⟨f.stops, [], 0, some 0⟩, []) := rfl
  have hne : f.stops.isEmpty = false := by
    cases hstops : f.stops with
    | nil => exact absurd hstops hs
    | cons a l => rfl
  have hfilter : f.stops.filter (fun s => f.neighborCount s = 1) = [] := by
    rw [List.filter_eq_nil]
    intro a ha
    simp [h1 a ha]
  have hsucc : (⟨f.stops, [], 0, some 0⟩ : SearchNode).successors f =
      .ok [] := by
    unfold SearchNode.successors
    simp [successorsFuel, hfilter, mapMExc]
  rw [searchLoop, hpop]
  simp only [hne, Bool.false_eq_true, if_false, hsucc, pushSuccs]
  rw [searchLoop]
  rfl

/-- Witness for the amended C10 at the 3-cycle feed, where a covering
walk exists but no station has exactly one neighbor. -/
theorem C10_no_leaf_start_no_solution_witness :
    search triFeed 5 = .error .noSolution :=
  C10_no_leaf_start_no_solution triFeed 5 (by decide) (by decide) (by decide)

/-! ### Claim C9: the heuristic on an empty unvisited set -/

lemma heuristic_nil (f : Feed) (from_node : String) :
    heuristic f from_node [] = none := by
  have h : f.leaves.filter (fun s => s ∈ ([] : List String)) = [] := by
    rw [List.filter_eq_nil]
    intro a _
    simp
  simp [heuristic, h]

lemma mapMExc_ok_mem {α β : Type} {g : α → Except RunErr β} :
    ∀ {l : List α} {ys : List β}, mapMExc g l = .ok ys →
      ∀ y ∈ ys, ∃ x ∈ l, g x = .ok y := by
  intro l
  induction l with
  | nil =>
    intro ys h y hy
    simp only [mapMExc] at h
    injection h with h
    subst h
    cases hy
  | cons x xs ih =>
    intro ys h y hy
    simp only [mapMExc] at h
    cases hgx : g x with
    | error e => rw [hgx] at h; cases h
    | ok y0 =>
      rw [hgx] at h
      cases hrest : mapMExc g xs with
      | error e => rw [hrest] at h; cases h
      | ok ys0 =>
        rw [hrest] at h
        simp only [Except.map] at h
        injection h with h
        subst h
        rcases List.mem_cons.mp hy with rfl | hmem
        · exact ⟨x, by simp, hgx⟩
        · obtain ⟨x', hx', hgx'⟩ := ih hrest y hmem
          exact ⟨x', by simp [hx'], hgx'⟩

lemma mkSucc_ok_ne_nil {f : Feed} {n : SearchNode} {e : Edge}
    {s : SearchNode} (h : mkSucc f n e = .ok s) :
    s.remaining_stops ≠ [] := by
  simp only [mkSucc] at h
  cases hh : heuristic f e.to_id
      (n.remaining_stops.filter
        (fun x => x ≠ e.to_id ∧ x ∉ e.intermediate_stops)) with
  | none => rw [hh] at h; cases h
  | some hv =>
    rw [hh] at h
    injection h with h
    subst h
    intro hnil
    simp only at hnil
    rw [hnil] at hh
    rw [heuristic_nil] at hh
    cases hh

/-- Claim C9: for every feed, the heuristic on an empty unvisited set
raises (models `max` of an empty sequence), and consequently successor
generation never yields a node whose unvisited set is empty — the search
raises before a zero-remaining goal node can be constructed. -/
theorem C9_empty_heuristic_raises :
    (∀ (f : Feed) (from_node : String), heuristic f from_node [] = none) ∧
    (∀ (f : Feed) (fuel : Nat) (n : SearchNode) (succs : List SearchNode),
      successorsFuel f fuel n = .ok succs →
      ∀ s ∈ succs, s.remaining_stops ≠ []) := by
  refine ⟨heuristic_nil, ?_⟩
  intro f fuel
  induction fuel with
  | zero => intro n succs h; cases h
  | succ fuel ih =>
    intro n succs h s hs
    rw [successorsFuel] at h
    cases hpath : n.path.getLast? with
    | none =>
      simp only [hpath] at h
      obtain ⟨x, _, hgx⟩ := mapMExc_ok_mem h s hs
      cases hheu : heuristic f x
          (n.remaining_stops.filter (fun s => s ≠ x)) with
      | none => rw [hheu] at hgx; cases hgx
      | some hv =>
        rw [hheu] at hgx
        injection hgx with hgx
        subst hgx
        intro hnil
        simp only at hnil
        rw [hnil] at hheu
        rw [heuristic_nil] at hheu
        cases hheu
    | some last =>
      simp only [hpath] at h
      rcases hfil : (f.neighbors last).filter
          (fun e => e.to_id ∈ n.remaining_stops) with _ | ⟨e, _ | ⟨e2, es⟩⟩
      · simp only [hfil] at h
        obtain ⟨x, _, hgx⟩ := mapMExc_ok_mem h s hs
        exact mkSucc_ok_ne_nil hgx
      · simp only [hfil] at h
        cases hmk : mkSucc f n e with
        | error er => rw [hmk] at h; cases h
        | ok succ =>
          rw [hmk] at h
          exact ih succ succs h s hs
      · simp only [hfil] at h
        obtain ⟨x, _, hgx⟩ := mapMExc_ok_mem h s hs
        exact mkSucc_ok_ne_nil hgx

/-- Witness for C9: the initial expansion of the star feed succeeds and
every yielded start node indeed has a non-empty unvisited set. -/
theorem C9_empty_heuristic_raises_witness :
    heuristic starFeed "X" [] = none ∧
    (∀ s ∈ ([⟨["X", "Q", "R"], ["P"], 0, some 120⟩,
             ⟨["X", "P", "R"], ["Q"], 0, some 120⟩,
             ⟨["X", "P", "Q"], ["R"], 0, some 120⟩] : List SearchNode),
      s.remaining_stops ≠ []) :=
  ⟨C9_empty_heuristic_raises.1 starFeed "X",
   C9_empty_heuristic_raises.2 starFeed 5 ⟨starFeed.stops, [], 0, some 0⟩ _
     (by decide)⟩

/-! ### Claim C7: midnight rollover -/

lemma rollover_ge (a l : ℤ) : l ≤ rollover a l := by
  have key : ∀ (n : ℕ) (a : ℤ), (l - a).toNat ≤ n → l ≤ rollover a l := by
    intro n
    induction n with
    | zero =>
      intro a h
      rw [rollover]
      split_ifs with hc
      · exfalso; omega
      · omega
    | succ n ih =>
      intro a h
      rw [rollover]
      split_ifs with hc
      · exact ih (a + 24 * 60 * 60) (by omega)
      · omega
  exact key (l - a).toNat a le_rfl

lemma rollover_add_days (a l : ℤ) :
    ∃ n : ℕ, rollover a l = a + 24 * 60 * 60 * n ∧ (a < l → 1 ≤ n) := by
  have key : ∀ (n : ℕ) (a : ℤ), (l - a).toNat ≤ n →
      ∃ m : ℕ, rollover a l = a + 24 * 60 * 60 * m ∧ (a < l → 1 ≤ m) := by
    intro n
    induction n with
    | zero =>
      intro a h
      rw [rollover]
      split_ifs with hc
      · exfalso; omega
      · exact ⟨0, by simp, fun hlt => absurd hlt hc⟩
    | succ n ih =>
      intro a h
      rw [rollover]
      split_ifs with hc
      · obtain ⟨m, hm, _⟩ := ih (a + 24 * 60 * 60) (by omega)
        refine ⟨m + 1, ?_, fun _ => by omega⟩
        rw [hm]
        push_cast
        ring
      · exact ⟨0, by simp, fun hlt => absurd hlt hc⟩
  exact key (l - a).toNat a le_rfl

/-- Claim C7: the rollover loop makes every recorded segment duration
non-negative by shifting a numerically smaller later arrival forward by
whole days, and the concrete pair 23:59:30 → 00:00:10 yields exactly 40
seconds. -/
theorem C7_midnight_rollover :
    (∀ arrival last_arrival : ℤ,
      0 ≤ segmentDuration arrival last_arrival) ∧
    (∀ arrival last_arrival : ℤ, arrival < last_arrival →
      ∃ n : ℕ, 1 ≤ n ∧
        rollover arrival last_arrival = arrival + 24 * 60 * 60 * n) ∧
    segmentDuration (hmsToSeconds 0 0 10) (hmsToSeconds 23 59 30) = 40 := by
  refine ⟨?_, ?_, ?_⟩
  · intro a l
    unfold segmentDuration
    have := rollover_ge a l
    omega
  · intro a l hlt
    obtain ⟨n, hn, h1⟩ := rollover_add_days a l
    exact ⟨n, h1 hlt, hn⟩
  · have h1 : hmsToSeconds 0 0 10 = 10 := by norm_num [hmsToSeconds]
    have h2 : hmsToSeconds 23 59 30 = 86370 := by norm_num [hmsToSeconds]
    rw [h1, h2]
    unfold segmentDuration
    rw [rollover]
    norm_num
    rw [rollover]
    norm_num

/-- Witness for C7 at the concrete midnight-crossing pair. -/
theorem C7_midnight_rollover_witness :
    0 ≤ segmentDuration 10 86370 ∧
    (∃ n : ℕ, 1 ≤ n ∧ rollover 10 86370 = 10 + 24 * 60 * 60 * n) :=
  ⟨C7_midnight_rollover.1 10 86370,
   C7_midnight_rollover.2.1 10 86370 (by norm_num)⟩

/-! ### Claim C8: unknown references are fatal -/

lemma loadStopTimes_error_aux (tbl : List (String × Trip)) :
    ∀ (records : List StopTimeRec) (st : STState),
      (∃ r ∈ records, r.trip_id ∉ tbl.map Prod.fst) →
      ∃ msg, records.foldlM (processStopTime tbl) st = .error msg := by
  intro records
  induction records with
  | nil =>
    intro st h
    obtain ⟨r, hr, _⟩ := h
    cases hr
  | cons r0 rs ih =>
    intro st h
    obtain ⟨r, hr, hbad⟩ := h
    rw [List.foldlM_cons]
    cases hfind : tbl.find? (fun e => e.1 = r0.trip_id) with
    | none =>
      refine ⟨"Unknown trip_id: " ++ r0.trip_id, ?_⟩
      have hstep : processStopTime tbl st r0 =
          .error ("Unknown trip_id: " ++ r0.trip_id) := by
        simp [processStopTime, hfind]
      rw [hstep]
      rfl
    | some e =>
      cases hst' : processStopTime tbl st r0 with
      | error msg => simp [processStopTime, hfind] at hst'
      | ok st' =>
      show ∃ msg, rs.foldlM (processStopTime tbl) st' = Except.error msg
      rcases List.mem_cons.mp hr with rfl | hmem
      · exfalso
        have h1 := List.find?_some hfind
        have h2 := List.mem_of_find?_eq_some hfind
        simp only [decide_eq_true_eq] at h1
        exact hbad (by rw [List.mem_map]; exact ⟨e, h2, h1⟩)
      · exact ih st' ⟨r, hmem, hbad⟩

/-- Claim C8: a trip record referencing a route absent from the route
table makes `Trip.parse` fail, and a stop-time record referencing a trip
absent from the trip table makes the whole stop-times pass fail — no
silent recovery, no partial result. -/
theorem C8_unknown_reference_fatal :
    (∀ (route_id trip_id direction_id : String)
        (routes_by_id : List (String × Route)),
      route_id ∉ routes_by_id.map Prod.fst →
      ∃ msg, Trip.parse route_id trip_id direction_id routes_by_id =
        .error msg) ∧
    (∀ (trips_by_id : List (String × Trip)) (records : List StopTimeRec),
      (∃ r ∈ records, r.trip_id ∉ trips_by_id.map Prod.fst) →
      ∃ msg, loadStopTimes trips_by_id records = .error msg) := by
  constructor
  · intro rid tid dir routes hmem
    unfold Trip.parse
    cases hfind : routes.find? (fun e => e.1 = rid) with
    | none => exact ⟨"Unknown route_id " ++ rid, rfl⟩
    | some e =>
      exfalso
      have h1 := List.find?_some hfind
      have h2 := List.mem_of_find?_eq_some hfind
      simp only [decide_eq_true_eq] at h1
      exact hmem (by rw [List.mem_map]; exact ⟨e, h2, h1⟩)
  · intro tbl records hbad
    exact loadStopTimes_error_aux tbl records _ hbad

/-- Witness for C8: a trip referencing the undefined route R9 and a
stop-time referencing the undefined trip t9 both fail. -/
theorem C8_unknown_reference_fatal_witness :
    (∃ msg, Trip.parse "R9" "t1" "0" [] = .error msg) ∧
    (∃ msg, loadStopTimes [] [⟨"t9", "s1", 0, 0⟩] = .error msg) :=
  ⟨C8_unknown_reference_fatal.1 "R9" "t1" "0" [] (by simp),
   C8_unknown_reference_fatal.2 [] [⟨"t9", "s1", 0, 0⟩]
     ⟨⟨"t9", "s1", 0, 0⟩, by simp, by simp⟩⟩

/-! ### Claim C6: edge consolidation -/

lemma option_or_none {α : Type} (x : Option α) : x.or none = x := by
  cases x <;> rfl

lemma option_or_assoc {α : Type} (x y z : Option α) :
    (x.or y).or z = x.or (y.or z) := by
  cases x <;> rfl

lemma getLast?_cons_or {α : Type} (a : α) (l : List α) :
    (a :: l).getLast? = l.getLast?.or (some a) := by
  cases hl : l.getLast? with
  | none =>
    have : l = [] := List.getLast?_eq_none_iff.mp hl
    subst this; rfl
  | some z =>
    cases l with
    | nil => simp at hl
    | cons b t =>
      rw [List.getLast?_cons_cons, hl]
      rfl

lemma find?_map_upsert_other {k k' : String × String} {v : Edge}
    (hkk : k ≠ k') :
    ∀ m : List ((String × String) × Edge),
      (m.map (fun en => if en.1 = k then (k, v) else en)).find?
          (fun en => en.1 = k') = m.find? (fun en => en.1 = k') := by
  intro m
  induction m with
  | nil => rfl
  | cons e es ih =>
    rw [List.map_cons]
    by_cases he : e.1 = k
    · rw [if_pos he]
      rw [List.find?_cons_of_neg _ (by simp [hkk])]
      rw [List.find?_cons_of_neg _ (by simp [he, hkk])]
      exact ih
    · rw [if_neg he]
      by_cases he' : e.1 = k'
      · rw [List.find?_cons_of_pos _ (by simp [he']),
          List.find?_cons_of_pos _ (by simp [he'])]
      · rw [List.find?_cons_of_neg _ (by simp [he']),
          List.find?_cons_of_neg _ (by simp [he'])]
        exact ih

lemma find?_map_upsert_self {k : String × String} {v : Edge} :
    ∀ m : List ((String × String) × Edge),
      m.any (fun en => en.1 = k) = true →
      (m.map (fun en => if en.1 = k then (k, v) else en)).find?
          (fun en => en.1 = k) = some (k, v) := by
  intro m
  induction m with
  | nil => intro h; simp at h
  | cons e es ih =>
    intro h
    rw [List.map_cons]
    by_cases he : e.1 = k
    · rw [if_pos he, List.find?_cons_of_pos _ (by simp)]
    · rw [if_neg he, List.find?_cons_of_neg _ (by simp [he])]
      apply ih
      rw [List.any_cons] at h
      simpa [he] using h

lemma upsertEdge_lookup (m : List ((String × String) × Edge))
    (k k' : String × String) (v : Edge) :
    edgesLookup (upsertEdge m k v) k' =
      if k = k' then some v else edgesLookup m k' := by
  unfold upsertEdge edgesLookup
  by_cases hany : m.any (fun en => en.1 = k) = true
  · rw [if_pos hany]
    by_cases hkk : k = k'
    · subst hkk
      rw [find?_map_upsert_self m hany]
      simp
    · rw [find?_map_upsert_other hkk m, if_neg hkk]
  · rw [if_neg hany]
    have hnone : m.find? (fun en => en.1 = k) = none := by
      rw [List.find?_eq_none]
      intro x hx
      simp only [decide_eq_true_eq]
      intro hxk
      exact hany (List.any_eq_true.mpr ⟨x, hx, by simp [hxk]⟩)
    by_cases hkk : k = k'
    · subst hkk
      rw [List.find?_append, hnone]
      rw [List.find?_cons_of_pos _ (by simp)]
      simp
    · rw [List.find?_append, if_neg hkk]
      rw [List.find?_cons_of_neg _ (by simp [hkk])]
      rw [List.find?_nil, option_or_none]

lemma consolidate_lookup (eqv : String → String) :
    ∀ (es : List Edge) (acc : List ((String × String) × Edge))
      (k : String × String),
      edgesLookup
          (es.foldl
            (fun m e =>
              let r := resolveEdge eqv e
              upsertEdge m (r.from_id, r.to_id) r) acc) k =
        (((es.map (resolveEdge eqv)).filter
            (fun e => (e.from_id, e.to_id) = k)).getLast?).or
          (edgesLookup acc k) := by
  intro es
  induction es with
  | nil => intro acc k; rfl
  | cons e0 es ih =>
    intro acc k
    rw [List.foldl_cons, ih, List.map_cons, List.filter_cons]
    rw [show (let r := resolveEdge eqv e0
          upsertEdge acc (r.from_id, r.to_id) r) =
        upsertEdge acc
          ((resolveEdge eqv e0).from_id, (resolveEdge eqv e0).to_id)
          (resolveEdge eqv e0) from rfl]
    by_cases hk : ((resolveEdge eqv e0).from_id, (resolveEdge eqv e0).to_id) = k
    · rw [if_pos (by simp [hk])]
      rw [upsertEdge_lookup, if_pos hk]
      rw [getLast?_cons_or, option_or_assoc]
      rfl
    · rw [if_neg (by simp [hk])]
      rw [upsertEdge_lookup, if_neg hk]

lemma upsertEdge_keys_nodup {m : List ((String × String) × Edge)}
    {k : String × String} {v : Edge}
    (h : (m.map Prod.fst).Nodup) :
    ((upsertEdge m k v).map Prod.fst).Nodup := by
  unfold upsertEdge
  by_cases hany : m.any (fun en => en.1 = k) = true
  · rw [if_pos hany]
    have hkeys : (m.map (fun en => if en.1 = k then (k, v) else en)).map
        Prod.fst = m.map Prod.fst := by
      rw [List.map_map]
      apply List.map_congr_left
      intro en _
      by_cases he : en.1 = k
      · simp [he]
      · simp [he]
    rw [hkeys]
    exact h
  · rw [if_neg hany]
    rw [List.map_append]
    rw [List.nodup_append]
    refine ⟨h, by simp, ?_⟩
    intro x hx
    simp only [List.map_cons, List.map_nil, List.mem_singleton]
    intro hxk
    subst hxk
    rw [List.mem_map] at hx
    obtain ⟨en, hen, hfst⟩ := hx
    exact hany (List.any_eq_true.mpr ⟨en, hen, by simp [hfst]⟩)

lemma consolidate_keys_nodup (eqv : String → String) :
    ∀ (es : List Edge) (acc : List ((String × String) × Edge)),
      (acc.map Prod.fst).Nodup →
      (((es.foldl
          (fun m e =>
            let r := resolveEdge eqv e
            upsertEdge m (r.from_id, r.to_id) r) acc)).map Prod.fst).Nodup := by
  intro es
  induction es with
  | nil => intro acc h; exact h
  | cons e0 es ih =>
    intro acc h
    rw [List.foldl_cons]
    exact ih _ (upsertEdge_keys_nodup h)

/-- Claim C6, counterexample: two raw pairs (p, q) and (c, q) resolving
to the same consolidated pair (p, q) carry the samples [60] and [120];
the consolidated edge keeps only the duration of the last one, 120,
instead of the arithmetic mean 90 of all samples for the pair. -/
theorem C6_counterexample_overwrite_not_mean :
    edgesLookup
        (consolidateEdges (fun s => if s = "c" then "p" else s)
          (buildEdges [(("p", "q"), [60]), (("c", "q"), [120])]))
        ("p", "q") = some ⟨"p", "q", 120, []⟩ ∧
    ((60 : ℚ) + 120) / 2 = 90 ∧
    (120 : ℚ) ≠ 90 := by
  decide

/-- Claim C6 (amended): the consolidated edge collection holds at most
one edge per ordered consolidated pair, and the edge stored for a pair is
built from the last raw pair (in construction order) that resolves to it;
its duration is the arithmetic mean of that raw pair's samples only. -/
theorem C6_consolidation_last_wins (eqv : String → String)
    (samples : List ((String × String) × List ℤ)) (k : String × String) :
    ((consolidateEdges eqv (buildEdges samples)).map Prod.fst).Nodup ∧
    edgesLookup (consolidateEdges eqv (buildEdges samples)) k =
      ((samples.filter
          (fun pr => (eqv pr.1.1, eqv pr.1.2) = k)).getLast?).map
        (fun pr =>
          ⟨eqv pr.1.1, eqv pr.1.2, (pr.2.sum : ℚ) / (pr.2.length : ℚ), []⟩) ∧
    (∀ pr ∈ samples.filter
        (fun pr => (eqv pr.1.1, eqv pr.1.2) = k),
      (eqv pr.1.1, eqv pr.1.2) = k) := by
  refine ⟨consolidate_keys_nodup eqv _ [] (by simp), ?_, ?_⟩
  · rw [show consolidateEdges eqv (buildEdges samples) =
        (buildEdges samples).foldl
          (fun m e =>
            let r := resolveEdge eqv e
            upsertEdge m (r.from_id, r.to_id) r) [] from rfl]
    rw [consolidate_lookup eqv (buildEdges samples) [] k]
    rw [show edgesLookup [] k = none from rfl, option_or_none]
    rw [show (buildEdges samples).map (resolveEdge eqv) =
        samples.map
          (fun pr =>
            (⟨eqv pr.1.1, eqv pr.1.2,
              (pr.2.sum : ℚ) / (pr.2.length : ℚ), []⟩ : Edge)) from by
      simp [buildEdges, resolveEdge, List.map_map]]
    rw [List.filter_map, List.getLast?_map]
    rfl
  · intro pr hpr
    have := List.of_mem_filter hpr
    simpa using this

/-- Witness for the amended C6 at the concrete two-raw-pair input. -/
theorem C6_consolidation_last_wins_witness :
    ((consolidateEdges (fun s => if s = "c" then "p" else s)
        (buildEdges [(("p", "q"), [60]), (("c", "q"), [120])])).map
          Prod.fst).Nodup :=
  (C6_consolidation_last_wins (fun s => if s = "c" then "p" else s)
    [(("p", "q"), [60]), (("c", "q"), [120])] ("p", "q")).1

end NYC
